import Mathlib

/-!
Verification of the coalescent-lab notebook (`coal-lab.ipynb`).

The notebook's only original logic is the site-frequency-spectrum (SFS)
function that Question 2 asks the student to write; the corresponding code
cells are empty placeholders, so the SFS function is modelled from the
spec's contract (section 4.1).  The remaining embedded operations — the
per-population sample and genotype-matrix slicing and the `np.int8`
conversion — are translated directly from the notebook's code cells.
-/

namespace CoalLab

/-- A genotype matrix: rows are variant sites, columns are samples,
entries are allele indicators (integers, as in the numpy array the
notebook extracts). -/
abbrev GMatrix := List (List Int)

/-- Number of rows of `G` whose entry sum equals `k` (one histogram bin of
the site-frequency spectrum). -/
def bin (G : GMatrix) (k : Int) : Nat :=
  (G.filter (fun row => row.sum == k)).length

/-- Modelled from the spec: the SFS function the notebook's Question 2
cells leave as empty placeholders.  Contract (spec 4.1): given a genotype
matrix and sample count `n`, return a sequence of length `n - 1` where
element `k` (1-indexed) is the number of sites whose derived-allele count
(row sum) is exactly `k`; rows whose sum is 0 or `n` fall in no bin and
are silently dropped; the function fails with an input-shape error
(modelled as `none`) when the matrix's sample dimension does not match
the declared `n`. -/
def sfs (G : GMatrix) (n : Nat) : Option (List Nat) :=
  if G.all (fun row => row.length == n) then
    some ((List.range (n - 1)).map (fun (i : Nat) => bin G ((i : Int) + 1)))
  else
    none

/-- A run of the SFS function threaded through an explicit state (the
matrix and sample count it was called on): the call returns its result
and leaves the state untouched. -/
def sfsRun (st : GMatrix × Nat) : Option (List Nat) × (GMatrix × Nat) :=
  (sfs st.1 st.2, st)

/-- A matrix is 0/1-valued when every entry is an allele indicator. -/
def ZeroOne (G : GMatrix) : Prop :=
  ∀ row ∈ G, ∀ x ∈ row, x = 0 ∨ x = 1

instance (G : GMatrix) : Decidable (ZeroOne G) := by
  unfold ZeroOne
  infer_instance

/-- A concrete genotype matrix with 4 sample columns whose four rows have
entry sums 1, 1, 2 and 3 (the spec's worked example). -/
def G4 : GMatrix := [[1, 0, 0, 0], [0, 1, 0, 0], [1, 1, 0, 0], [1, 1, 1, 0]]

/-- Python slicing `l[a:b]` on a list (for `a ≤ b`), as used by the
notebook's sample and column slices. -/
def pySlice (l : List α) (a b : Nat) : List α := (l.drop a).take (b - a)

/-- The notebook's `YRI = ts.samples()[:50]` applied to the sample list. -/
def samplesYRI (s : List Nat) : List Nat := pySlice s 0 50

/-- The notebook's `CEU = ts.samples()[50:100]`. -/
def samplesCEU (s : List Nat) : List Nat := pySlice s 50 100

/-- The notebook's `CHB = ts.samples()[100:150]`. -/
def samplesCHB (s : List Nat) : List Nat := pySlice s 100 150

/-- A numpy column slice `G[:, a:b]`: every row is restricted to the
columns `a ≤ j < b`. -/
def colSlice (G : GMatrix) (a b : Nat) : GMatrix :=
  G.map (fun row => pySlice row a b)

/-- The notebook's `G_YRI = G[:, 0:50]`. -/
def G_YRI (G : GMatrix) : GMatrix := colSlice G 0 50

/-- The notebook's `G_CEU = G[:, 50:100]`. -/
def G_CEU (G : GMatrix) : GMatrix := colSlice G 50 100

/-- The notebook's `G_CHB = G[:, 100:150]`. -/
def G_CHB (G : GMatrix) : GMatrix := colSlice G 100 150

/-- The `np.int8` conversion of a single value: two's-complement
truncation to the signed 8-bit range. -/
def int8 (x : Int) : Int := (x + 128) % 256 - 128

/-- The notebook's `G = np.int8(G)`: elementwise `np.int8` conversion of
a genotype matrix. -/
def int8Matrix (G : GMatrix) : GMatrix := G.map (List.map int8)

/-- Modelled from the spec: the tree-sequence object returned by the
external simulation libraries, which the notebook consumes as a black
box.  It exposes a sample count (the sampled haplotypes) and per-site
variant records; spec section 3 states that the rows of the extracted
genotype matrix are exactly the segregating sites produced by the
simulation and the columns are the sampled haplotypes, so each recorded
site carries one indicator per sample and is segregating (its
derived-allele count is neither 0 nor the sample count). -/
structure TreeSeq where
  numSamples : Nat
  sites : GMatrix
  shape_ok : ∀ s ∈ sites, s.length = numSamples
  seg_ok : ∀ s ∈ sites, 0 < s.sum ∧ s.sum < (numSamples : Int)

/-- Modelled from the spec: `ts.genotype_matrix()`, one row per variant
site and one column per sampled haplotype. -/
def genotype_matrix (ts : TreeSeq) : GMatrix := ts.sites

/-- Modelled from the spec: `ts.segregating_sites(span_normalise=False)`,
the number of segregating (non-fixed) sites of the simulation. -/
def segregating_sites (ts : TreeSeq) : Nat :=
  (ts.sites.filter
    (fun s => decide (0 < s.sum ∧ s.sum < (ts.numSamples : Int)))).length

/-- Modelled from the spec: `model.get_samples(a, b, c)` draws `a`, `b`
and `c` haplotypes from the three populations, so the simulated sample
count is their sum. -/
def get_samples (a b c : Nat) : Nat := a + b + c

/- ### Basic facts about `sfs` -/

theorem sfs_eq_some_of_shape (G : GMatrix) (n : Nat)
    (hshape : ∀ row ∈ G, row.length = n) :
    sfs G n
      = some ((List.range (n - 1)).map (fun (i : Nat) => bin G ((i : Int) + 1))) := by
  unfold sfs
  rw [if_pos]
  simp only [List.all_eq_true, beq_iff_eq]
  exact hshape

theorem sum_bounds_of_zeroOne (row : List Int)
    (h : ∀ x ∈ row, x = 0 ∨ x = 1) :
    0 ≤ row.sum ∧ row.sum ≤ (row.length : Int) := by
  induction row with
  | nil => simp
  | cons a l ih =>
    have ha := h a (List.mem_cons_self a l)
    have hl := ih (fun x hx => h x (List.mem_cons_of_mem a hx))
    simp only [List.sum_cons, List.length_cons]
    push_cast
    rcases ha with ha | ha <;> omega

theorem range_map_indicator_sum (m : Nat) (v : Int) :
    ((List.range m).map (fun (i : Nat) => if v == (i : Int) + 1 then 1 else 0)).sum
      = if 1 ≤ v ∧ v ≤ (m : Int) then 1 else 0 := by
  induction m with
  | zero =>
    rw [if_neg (by omega)]
    simp
  | succ m ih =>
    rw [List.range_succ, List.map_append, List.sum_append]
    simp only [List.map_cons, List.map_nil, List.sum_cons, List.sum_nil, ih]
    by_cases hv : v = (m : Int) + 1
    · subst hv
      have hA : ¬(1 ≤ (m : Int) + 1 ∧ (m : Int) + 1 ≤ (m : Int)) := by omega
      have hB : (((m : Int) + 1 == (m : Int) + 1) = true) := by simp
      have hC : 1 ≤ (m : Int) + 1 ∧ (m : Int) + 1 ≤ ((m + 1 : Nat) : Int) := by
        push_cast
        omega
      rw [if_neg hA, if_pos hB, if_pos hC]
      omega
    · have hB : ¬((v == (m : Int) + 1) = true) := by simpa using hv
      by_cases h1 : 1 ≤ v ∧ v ≤ (m : Int)
      · have hC : 1 ≤ v ∧ v ≤ ((m + 1 : Nat) : Int) := ⟨h1.1, by push_cast; omega⟩
        rw [if_pos h1, if_neg hB, if_pos hC]
        omega
      · have hC : ¬(1 ≤ v ∧ v ≤ ((m + 1 : Nat) : Int)) := by
          push_cast at h1 ⊢
          omega
        rw [if_neg h1, if_neg hB, if_neg hC]
        omega

theorem bin_cons (r : List Int) (G : GMatrix) (k : Int) :
    bin (r :: G) k = (if r.sum == k then 1 else 0) + bin G k := by
  unfold bin
  rw [List.filter_cons]
  by_cases h : r.sum = k
  · simp [h]
    omega
  · simp [h]

theorem sum_bins_eq_countP (G : GMatrix) (m : Nat) :
    ((List.range m).map (fun (i : Nat) => bin G ((i : Int) + 1))).sum
      = (G.filter (fun row => decide (1 ≤ row.sum ∧ row.sum ≤ (m : Int)))).length := by
  induction G with
  | nil => simp [bin]
  | cons r G ih =>
    have hsplit :
        ((List.range m).map (fun (i : Nat) => bin (r :: G) ((i : Int) + 1))).sum
          = ((List.range m).map
                (fun (i : Nat) => if r.sum == (i : Int) + 1 then 1 else 0)).sum
            + ((List.range m).map (fun (i : Nat) => bin G ((i : Int) + 1))).sum := by
      simp only [bin_cons]
      rw [← List.sum_map_add]
    rw [hsplit, ih, List.filter_cons, range_map_indicator_sum m r.sum]
    by_cases h : 1 ≤ r.sum ∧ r.sum ≤ (m : Int)
    · rw [if_pos h, if_pos (by simpa using h)]
      simp
      omega
    · rw [if_neg h, if_neg (by simpa using h)]
      omega

theorem bin_append (G H : GMatrix) (k : Int) :
    bin (G ++ H) k = bin G k + bin H k := by
  unfold bin
  rw [List.filter_append, List.length_append]

theorem bin_singleton_eq_zero (r : List Int) (k : Int) (h : r.sum ≠ k) :
    bin [r] k = 0 := by
  simp [bin, h]

theorem take_split (l : List α) (m n : Nat) :
    l.take (m + n) = l.take m ++ (l.drop m).take n := by
  induction l generalizing m with
  | nil => simp
  | cons a t ih =>
    cases m with
    | zero => simp
    | succ m =>
      simp only [Nat.succ_add, List.take_succ_cons, List.drop_succ_cons,
        List.cons_append, List.cons.injEq, true_and]
      exact ih m

/- ### Claim theorems -/

/-- C1: for every 0/1 genotype matrix `G` whose column count is the
declared sample count `n`, the SFS function returns a sequence of length
`n - 1` whose element `k` (1-indexed) equals the number of rows of `G`
whose entry sum is exactly `k`. -/
theorem sfs_bin_counts (G : GMatrix) (n : Nat)
    (h01 : ZeroOne G) (hshape : ∀ row ∈ G, row.length = n) :
    ∃ s, sfs G n = some s ∧ s.length = n - 1 ∧
      ∀ k : Nat, 1 ≤ k → k ≤ n - 1 →
        s[k - 1]? = some ((G.filter (fun row => row.sum == (k : Int))).length) := by
  refine ⟨_, sfs_eq_some_of_shape G n hshape, by simp, ?_⟩
  intro k hk1 hk2
  have hk : ((k - 1 : Nat) : Int) + 1 = (k : Int) := by omega
  rw [List.getElem?_map, List.getElem?_range (by omega)]
  simp only [Option.map_some', bin, hk]

/-- C1 witness: the theorem instantiated at the spec's 4-sample example
matrix. -/
theorem sfs_bin_counts_witness :
    ZeroOne G4 ∧ (∀ row ∈ G4, row.length = 4) ∧
      (∃ s, sfs G4 4 = some s ∧ s.length = 3 ∧
        ∀ k : Nat, 1 ≤ k → k ≤ 3 →
          s[k - 1]? = some ((G4.filter (fun row => row.sum == (k : Int))).length)) :=
  ⟨by decide, by decide, sfs_bin_counts G4 4 (by decide) (by decide)⟩

/-- C2: for every 0/1 genotype matrix with `n` columns, the bins of the
returned spectrum sum to the number of segregating rows, i.e. the rows
whose entry sum is neither 0 nor `n`. -/
theorem sfs_sum_bins (G : GMatrix) (n : Nat)
    (h01 : ZeroOne G) (hshape : ∀ row ∈ G, row.length = n) :
    ∃ s, sfs G n = some s ∧
      s.sum = (G.filter
        (fun row => decide (row.sum ≠ 0 ∧ row.sum ≠ (n : Int)))).length := by
  refine ⟨_, sfs_eq_some_of_shape G n hshape, ?_⟩
  rw [sum_bins_eq_countP]
  congr 1
  apply List.filter_congr
  intro row hrow
  have hb := sum_bounds_of_zeroOne row (h01 row hrow)
  rw [hshape row hrow] at hb
  rw [decide_eq_decide]
  omega

/-- C2 witness: the theorem instantiated at the spec's 4-sample example
matrix. -/
theorem sfs_sum_bins_witness :
    ZeroOne G4 ∧ (∀ row ∈ G4, row.length = 4) ∧
      (∃ s, sfs G4 4 = some s ∧
        s.sum = (G4.filter
          (fun row => decide (row.sum ≠ 0 ∧ row.sum ≠ (4 : Int)))).length) :=
  ⟨by decide, by decide, sfs_sum_bins G4 4 (by decide) (by decide)⟩

/-- C3: on a nonempty matrix of uniform column count `c`, the SFS
function fails (returns `none`) exactly when `c` differs from the
declared sample count `n`. -/
theorem sfs_shape_failure (G : GMatrix) (n c : Nat)
    (hcols : ∀ row ∈ G, row.length = c) (hne : G ≠ []) :
    sfs G n = none ↔ c ≠ n := by
  constructor
  · intro hnone hcn
    subst hcn
    rw [sfs_eq_some_of_shape G c hcols] at hnone
    exact Option.noConfusion hnone
  · intro hcn
    obtain ⟨r, hr⟩ := List.exists_mem_of_ne_nil G hne
    have hcond : ¬(G.all (fun row => row.length == n) = true) := by
      simp only [List.all_eq_true, beq_iff_eq]
      push_neg
      exact ⟨r, hr, by rw [hcols r hr]; exact hcn⟩
    unfold sfs
    rw [if_neg hcond]

/-- C3 witness: the theorem instantiated at a one-row two-column matrix
with matching declared count. -/
theorem sfs_shape_failure_witness :
    (∀ row ∈ ([[0, 1]] : GMatrix), row.length = 2) ∧
      ([[0, 1]] : GMatrix) ≠ [] ∧
      (sfs [[0, 1]] 2 = none ↔ 2 ≠ 2) :=
  ⟨by decide, by decide, sfs_shape_failure [[0, 1]] 2 2 (by decide) (by decide)⟩

/-- C4: appending an all-zero or an all-one row to a genotype matrix
with `n` columns leaves the returned spectrum unchanged, and no bin
`1 ≤ k ≤ n - 1` counts such a row. -/
theorem sfs_drops_invariant_rows (G : GMatrix) (n : Nat)
    (hshape : ∀ row ∈ G, row.length = n) :
    sfs (G ++ [List.replicate n (0 : Int)]) n = sfs G n
      ∧ sfs (G ++ [List.replicate n (1 : Int)]) n = sfs G n
      ∧ (∀ k : Nat, 1 ≤ k → k ≤ n - 1 →
          bin [List.replicate n (0 : Int)] (k : Int) = 0
            ∧ bin [List.replicate n (1 : Int)] (k : Int) = 0) := by
  have hz : (List.replicate n (0 : Int)).sum = 0 := by simp
  have ho : (List.replicate n (1 : Int)).sum = (n : Int) := by simp
  have hshape0 : ∀ row ∈ G ++ [List.replicate n (0 : Int)], row.length = n := by
    intro row hrow
    rcases List.mem_append.mp hrow with h | h
    · exact hshape row h
    · rw [List.mem_singleton.mp h]
      simp
  have hshape1 : ∀ row ∈ G ++ [List.replicate n (1 : Int)], row.length = n := by
    intro row hrow
    rcases List.mem_append.mp hrow with h | h
    · exact hshape row h
    · rw [List.mem_singleton.mp h]
      simp
  refine ⟨?_, ?_, ?_⟩
  · rw [sfs_eq_some_of_shape _ _ hshape0, sfs_eq_some_of_shape _ _ hshape]
    refine congrArg some (List.map_congr_left ?_)
    intro i hi
    have hi2 : i < n - 1 := List.mem_range.mp hi
    rw [bin_append, bin_singleton_eq_zero _ _ (by rw [hz]; omega)]
    omega
  · rw [sfs_eq_some_of_shape _ _ hshape1, sfs_eq_some_of_shape _ _ hshape]
    refine congrArg some (List.map_congr_left ?_)
    intro i hi
    have hi2 : i < n - 1 := List.mem_range.mp hi
    rw [bin_append, bin_singleton_eq_zero _ _ (by rw [ho]; omega)]
    omega
  · intro k hk1 hk2
    exact ⟨bin_singleton_eq_zero _ _ (by rw [hz]; omega),
      bin_singleton_eq_zero _ _ (by rw [ho]; omega)⟩

/-- C4 witness: the theorem instantiated at the spec's 4-sample example
matrix. -/
theorem sfs_drops_invariant_rows_witness :
    (∀ row ∈ G4, row.length = 4) ∧
      sfs (G4 ++ [List.replicate 4 (0 : Int)]) 4 = sfs G4 4 :=
  ⟨by decide, (sfs_drops_invariant_rows G4 4 (by decide)).1⟩

/-- C5: on the concrete 4-sample matrix whose rows have sums 1, 1, 2
and 3, the SFS function returns the spectrum `[2, 1, 1]`. -/
theorem sfs_example_n4 : sfs G4 4 = some [2, 1, 1] := by decide

/-- C6: a genotype matrix with a single sample column yields the empty
spectrum (`n - 1 = 0` bins). -/
theorem sfs_single_sample (G : GMatrix)
    (hshape : ∀ row ∈ G, row.length = 1) :
    sfs G 1 = some [] := by
  rw [sfs_eq_some_of_shape G 1 hshape]
  simp

/-- C6 witness: the theorem instantiated at a one-row one-column
matrix. -/
theorem sfs_single_sample_witness :
    (∀ row ∈ ([[1]] : GMatrix), row.length = 1) ∧ sfs [[1]] 1 = some [] :=
  ⟨by decide, sfs_single_sample [[1]] (by decide)⟩

/-- C7: the SFS function is deterministic and pure: a run on state
`(G, n)` returns the value `sfs G n` determined by that state alone (so
two evaluations on the same input agree) and hands the state back
unmodified. -/
theorem sfs_deterministic_pure (G : GMatrix) (n : Nat) :
    (sfsRun (G, n)).1 = sfs G n ∧ (sfsRun (G, n)).2 = (G, n) :=
  ⟨rfl, rfl⟩

/-- C8: a genotype matrix extracted from a tree sequence has one row per
segregating site of the simulation and one column per sampled haplotype;
the stdpopsim run sampling 50 + 50 + 50 haplotypes has 150 columns. -/
theorem genotype_matrix_dims (ts : TreeSeq) :
    (genotype_matrix ts).length = segregating_sites ts
      ∧ (∀ row ∈ genotype_matrix ts, row.length = ts.numSamples)
      ∧ get_samples 50 50 50 = 150 := by
  refine ⟨?_, ts.shape_ok, rfl⟩
  unfold genotype_matrix segregating_sites
  have h : ts.sites.filter
      (fun s => decide (0 < s.sum ∧ s.sum < (ts.numSamples : Int))) = ts.sites :=
    List.filter_eq_self.mpr (fun s hs => by simpa using ts.seg_ok s hs)
  rw [h]

theorem concat_first150 (l : List α) (hl : l.length = 150) :
    pySlice l 0 50 ++ (pySlice l 50 100 ++ pySlice l 100 150) = l := by
  have e1 : l.take 150 = l := by rw [← hl, List.take_length]
  have e2 : l.take 150 = l.take 50 ++ (l.drop 50).take 100 := by
    have h := take_split l 50 100
    norm_num at h
    exact h
  have e3 : (l.drop 50).take 100 = (l.drop 50).take 50 ++ (l.drop 100).take 50 := by
    have h := take_split (l.drop 50) 50 50
    rw [List.drop_drop] at h
    norm_num at h
    exact h
  simp only [pySlice, List.drop_zero]
  norm_num
  rw [← e3, ← e2, e1]

/-- C9: the per-population sample slices `ts.samples()[:50]`,
`[50:100]`, `[100:150]` are pairwise disjoint and concatenate to the
full 150-element sample list, and the column slices `G[:, 0:50]`,
`G[:, 50:100]`, `G[:, 100:150]` each keep every row of `G` and have 50
columns, partitioning the 150 columns contiguously. -/
theorem population_partition (s : List Nat) (G : GMatrix)
    (hnd : s.Nodup) (hlen : s.length = 150)
    (hrows : ∀ row ∈ G, row.length = 150) :
    List.Disjoint (samplesYRI s) (samplesCEU s)
      ∧ List.Disjoint (samplesYRI s) (samplesCHB s)
      ∧ List.Disjoint (samplesCEU s) (samplesCHB s)
      ∧ samplesYRI s ++ (samplesCEU s ++ samplesCHB s) = s
      ∧ (samplesYRI s).length = 50
      ∧ (samplesCEU s).length = 50
      ∧ (samplesCHB s).length = 50
      ∧ (G_YRI G).length = G.length
      ∧ (G_CEU G).length = G.length
      ∧ (G_CHB G).length = G.length
      ∧ (∀ row ∈ G_YRI G, row.length = 50)
      ∧ (∀ row ∈ G_CEU G, row.length = 50)
      ∧ (∀ row ∈ G_CHB G, row.length = 50)
      ∧ (∀ row ∈ G,
          pySlice row 0 50 ++ (pySlice row 50 100 ++ pySlice row 100 150) = row) := by
  have hY : samplesYRI s = s.take 50 := by simp [samplesYRI, pySlice]
  have hC : samplesCEU s = (s.drop 50).take 50 := by
    simp only [samplesCEU, pySlice]
  have hH : samplesCHB s = (s.drop 100).take 50 := by
    simp only [samplesCHB, pySlice]
  have hdrop : (s.drop 50).drop 50 = s.drop 100 := by
    rw [List.drop_drop]
  have hndt : (s.drop 50).Nodup := List.Nodup.sublist (List.drop_sublist 50 s) hnd
  refine ⟨?_, ?_, ?_, ?_, ?_, ?_, ?_, ?_, ?_, ?_, ?_, ?_, ?_, ?_⟩
  · rw [hY, hC]
    intro a ha hb
    exact List.disjoint_take_drop hnd (Nat.le_refl 50) ha (List.take_subset 50 _ hb)
  · rw [hY, hH]
    intro a ha hb
    exact List.disjoint_take_drop hnd (by omega) ha (List.take_subset 50 _ hb)
  · rw [hC, hH]
    intro a ha hb
    rw [← hdrop] at hb
    exact List.disjoint_take_drop hndt (Nat.le_refl 50) ha (List.take_subset 50 _ hb)
  · simp only [samplesYRI, samplesCEU, samplesCHB]
    exact concat_first150 s hlen
  · rw [hY, List.length_take, hlen]
    omega
  · rw [hC, List.length_take, List.length_drop, hlen]
    omega
  · rw [hH, List.length_take, List.length_drop, hlen]
    omega
  · simp [G_YRI, colSlice]
  · simp [G_CEU, colSlice]
  · simp [G_CHB, colSlice]
  · intro row hrow
    obtain ⟨r, hr, rfl⟩ := List.mem_map.mp hrow
    simp [pySlice, List.length_take, List.length_drop, hrows r hr]
  · intro row hrow
    obtain ⟨r, hr, rfl⟩ := List.mem_map.mp hrow
    simp [pySlice, List.length_take, List.length_drop, hrows r hr]
  · intro row hrow
    obtain ⟨r, hr, rfl⟩ := List.mem_map.mp hrow
    simp [pySlice, List.length_take, List.length_drop, hrows r hr]
  · intro row hrow
    exact concat_first150 row (hrows row hrow)

/-- C9 witness: the theorem instantiated at the sample list
`0, …, 149` and a one-row matrix of 150 zero columns. -/
theorem population_partition_witness :
    (List.range 150).Nodup ∧ (List.range 150).length = 150
      ∧ (∀ row ∈ ([List.replicate 150 (0 : Int)] : GMatrix), row.length = 150)
      ∧ samplesYRI (List.range 150)
          ++ (samplesCEU (List.range 150) ++ samplesCHB (List.range 150))
        = List.range 150 :=
  ⟨List.nodup_range 150, by simp, by simp,
    (population_partition (List.range 150) [List.replicate 150 (0 : Int)]
      (List.nodup_range 150) (by simp) (by simp)).2.2.2.1⟩

/-- C10: on any matrix whose entries lie in the signed 8-bit range (in
particular a 0/1 genotype matrix), `np.int8` conversion preserves shape
and every entry, so the spectrum of the converted matrix equals the
spectrum of the original. -/
theorem int8_value_preserving (G : GMatrix) (n : Nat)
    (hrange : ∀ row ∈ G, ∀ x ∈ row, -128 ≤ x ∧ x ≤ 127) :
    int8Matrix G = G
      ∧ (int8Matrix G).length = G.length
      ∧ sfs (int8Matrix G) n = sfs G n := by
  have hfix : ∀ x : Int, -128 ≤ x → x ≤ 127 → int8 x = x := by
    intro x h1 h2
    unfold int8
    rw [Int.emod_eq_of_lt (by omega) (by omega)]
    omega
  have hmat : int8Matrix G = G := by
    unfold int8Matrix
    calc G.map (List.map int8) = G.map id := by
          apply List.map_congr_left
          intro row hrow
          show List.map int8 row = row
          calc row.map int8 = row.map id := by
                apply List.map_congr_left
                intro x hx
                exact hfix x (hrange row hrow x hx).1 (hrange row hrow x hx).2
            _ = row := List.map_id row
      _ = G := List.map_id G
  exact ⟨hmat, by rw [hmat], by rw [hmat]⟩

/-- C10 witness: the theorem instantiated at a two-row 0/1 matrix. -/
theorem int8_value_preserving_witness :
    (∀ row ∈ ([[0, 1], [1, 1]] : GMatrix), ∀ x ∈ row, -128 ≤ x ∧ x ≤ 127)
      ∧ int8Matrix [[0, 1], [1, 1]] = [[0, 1], [1, 1]] :=
  ⟨by decide, (int8_value_preserving [[0, 1], [1, 1]] 2 (by decide)).1⟩

end CoalLab
